import Mathlib

/-!
Pceamless: backup and restore of a home directory

A shallow embedding of `src/backup.go`, `src/restore.go` and the item catalog of
`src/main.go`, together with the part of the Go standard library and of the
operating system that those functions call.

Modelling decisions, all of them about the environment and none about the
program:

* a Go `string` is a Lean `String`; `/` and `.` are single bytes, so splitting
  a path at separators is the same on bytes and on characters;
* the file system is a finite map from resolved paths (lists of element
  names, counted from the root) to nodes; a relative path is resolved from the
  root, `.` and `..` are resolved lexically;
* symbolic links are leaves: the model never resolves one, and an operation
  that would have to follow a link fails;
* access permissions are not enforced (the process may read and write every
  entry); the process `umask` is applied to every newly created entry;
* a path of `pathMax` bytes or more is refused by every system call;
* the zip codec is abstract: the content of a regular file is either raw
  bytes or a well formed archive, given as its list of entries;
* `brew` is an arbitrary function of the world.
-/

namespace Pceamless

/-! ## Go strings -/

/-- Go `strings.HasPrefix`. -/
def HasPrefix (s pre : String) : Bool := pre.data.isPrefixOf s.data

/-- Go `strings.HasSuffix`. -/
def HasSuffix (s suf : String) : Bool := suf.data.reverse.isPrefixOf s.data.reverse

/-- Go `strings.TrimSuffix`. -/
def TrimSuffix (s suf : String) : String :=
  if HasSuffix s suf then ⟨s.data.take (s.data.length - suf.data.length)⟩ else s

/-- Byte-wise order of strings, the order of Go's `sort.Strings`. -/
def lexLe : List Char → List Char → Bool
  | [], _ => true
  | _ :: _, [] => false
  | a :: as, b :: bs =>
    if a.toNat < b.toNat then true
    else if a.toNat = b.toNat then lexLe as bs
    else false

/-- Go `sort.Strings` (the order in which `os.ReadDir` and `filepath.Walk`
present the entries of a directory). -/
def sortStrings (l : List String) : List String :=
  l.insertionSort (fun a b => lexLe a.data b.data = true)

/-! ## `path/filepath` on a system whose separator is `/` -/

/-- The elements of a path: the pieces between separators, empty ones
included. -/
def splitSep : List Char → List (List Char)
  | [] => [[]]
  | c :: cs =>
    if c = '/' then [] :: splitSep cs
    else
      match splitSep cs with
      | [] => [[c]]
      | e :: es => (c :: e) :: es

/-- The elements of a path, as strings. -/
def splitPath (s : String) : List String := (splitSep s.data).map String.mk

/-- Go `strings.Join(elems, "/")`. -/
def joinSep : List String → String
  | [] => ""
  | [e] => e
  | e :: es => e ++ "/" ++ joinSep es

/-- One step of `filepath.Clean`: `out` is the stack of elements kept so far,
innermost first. Empty and `.` elements are dropped; `..` removes the element
before it, is dropped at the root, and is kept at the start of a relative
path. -/
def cleanStep (rooted : Bool) (out : List String) (e : String) : List String :=
  if e = "" ∨ e = "." then out
  else if e = ".." then
    match out with
    | [] => if rooted then [] else [".."]
    | top :: rest => if top = ".." then ".." :: top :: rest else rest
  else e :: out

/-- The elements that `filepath.Clean` keeps, outermost first. -/
def cleanElems (rooted : Bool) (es : List String) : List String :=
  (es.foldl (cleanStep rooted) []).reverse

/-- Go `filepath.Clean`. -/
def Clean (path : String) : String :=
  if path = "" then "."
  else
    let rooted := HasPrefix path "/"
    let out := cleanElems rooted (splitPath path)
    if rooted then "/" ++ joinSep out
    else if out = [] then "." else joinSep out

/-- Go `filepath.Join`: empty leading elements are ignored, the rest is joined
with the separator and cleaned. -/
def Join (elem : List String) : String :=
  match elem.dropWhile (fun e => e = "") with
  | [] => ""
  | e :: es => Clean (joinSep (e :: es))

/-- Go `filepath.ToSlash`; the separator is already `/`. -/
def ToSlash (path : String) : String := path

/-- Removes the longest common prefix of two lists of elements. -/
def dropCommon : List String → List String → List String × List String
  | b :: bs, t :: ts => if b = t then dropCommon bs ts else (b :: bs, t :: ts)
  | bs, ts => (bs, ts)

/-- Go `filepath.Rel`: `none` when the target cannot be made relative to the
base lexically. -/
def Rel (basepath targpath : String) : Option String :=
  if Clean targpath = Clean basepath then some "."
  else if HasPrefix (Clean basepath) "/" ≠ HasPrefix (Clean targpath) "/" then none
  else
    let r := HasPrefix (Clean basepath) "/"
    let bt := dropCommon (cleanElems r (splitPath (Clean basepath)))
      (cleanElems r (splitPath (Clean targpath)))
    if ".." ∈ bt.1 then none
    else some (joinSep (bt.1.map (fun _ => "..") ++ bt.2))

/-! ## Errors -/

/-- The system errors that occur in the model. -/
inductive Errno
  | ENOENT | EEXIST | ENOTDIR | EISDIR | ENAMETOOLONG | EINVAL | EOPNOTSUPP
  deriving DecidableEq, Repr

/-- Go `error` values: a failed system call (`*fs.PathError`) or a message
(`errors.New`, `fmt.Errorf`). A Go function result of type `error` is an
`Option Error`, with `none` for `nil`. -/
inductive Error
  | sys (op path : String) (errno : Errno)
  | text (msg : String)
  deriving DecidableEq, Repr

/-- The text of a system error. -/
def Errno.toStr : Errno → String
  | .ENOENT => "no such file or directory"
  | .EEXIST => "file exists"
  | .ENOTDIR => "not a directory"
  | .EISDIR => "is a directory"
  | .ENAMETOOLONG => "file name too long"
  | .EINVAL => "invalid argument"
  | .EOPNOTSUPP => "operation not supported"

/-- Go `err.Error()`, what `%v` prints. -/
def Error.toStr : Error → String
  | .sys op path errno => op ++ " " ++ path ++ ": " ++ errno.toStr
  | .text msg => msg

/-! ## File system -/

/-- The type of an entry, the type bits of Go's `fs.FileMode`. -/
inductive Kind
  | regular | dir | symlink | other
  deriving DecidableEq, Repr

/-- Go `fs.FileMode`: type and permission bits. -/
structure FileMode where
  kind : Kind
  perm : Nat
  deriving DecidableEq, Repr

mutual
/-- The content of a regular file: raw bytes, or a zip archive given by its
entries. -/
inductive Content
  | bytes (b : List Nat)
  | zip (files : List ZipFile)
/-- An entry of a zip archive (`zip.File`): name, stored mode and content. -/
inductive ZipFile
  | mk (Name : String) (stored : FileMode) (data : Content)
end

/-- The name of a zip entry. -/
def ZipFile.Name : ZipFile → String
  | .mk n _ _ => n

/-- The mode stored in the header of a zip entry. -/
def ZipFile.stored : ZipFile → FileMode
  | .mk _ m _ => m

/-- The content of a zip entry. -/
def ZipFile.data : ZipFile → Content
  | .mk _ _ d => d

/-- Go `(*zip.FileHeader).Mode`: the stored mode, marked as a directory when
the name ends in a separator. -/
def ZipFile.Mode (f : ZipFile) : FileMode :=
  if HasSuffix f.Name "/" then { kind := .dir, perm := f.stored.perm } else f.stored

/-- An entry of the file system. -/
inductive Node
  | file (perm : Nat) (content : Content)
  | dir (perm : Nat)
  | symlink (target : String)
  | other (perm : Nat)

/-- Go `FileInfo.Mode`. -/
def Node.Mode : Node → FileMode
  | .file perm _ => { kind := .regular, perm := perm }
  | .dir perm => { kind := .dir, perm := perm }
  | .symlink _ => { kind := .symlink, perm := 0o777 }
  | .other perm => { kind := .other, perm := perm }

/-- Go `FileInfo.IsDir`. -/
def Node.IsDir : Node → Bool
  | .dir _ => true
  | _ => false

/-- A resolved path: the element names from the root down. -/
abbrev Path := List String

/-- The file system: the first binding of a path is the entry at that path. -/
abbrev FS := List (Path × Node)

/-- The world the program acts on: the file system and what has been printed
on standard output. -/
structure World where
  fs : FS
  stdout : List String

/-- Go `fmt.Printf` and `fmt.Println`. -/
def World.printf (w : World) (line : String) : World :=
  { w with stdout := w.stdout ++ [line] }

/-- The environment of the process. `excludeFiles` and `restoreExcludeFiles`
are the package-level variables of those names; `timestamp` is
`time.Now().Format("20060102150405")`; `brewBundleDump dir` is the effect and
exit status of running `brew bundle dump` in `dir`. -/
structure Env where
  HOME : String
  umask : Nat
  pathMax : Nat
  timestamp : String
  excludeFiles : List String
  restoreExcludeFiles : List String
  brewBundleDump : String → World → Option Error × World

/-- The entry bound to a resolved path. The root always exists. -/
def find (p : Path) : FS → Option Node
  | [] => none
  | (q, n) :: rest => if q = p then some n else find p rest

/-- The entry at a resolved path. -/
def lookupNode (fs : FS) (p : Path) : Option Node :=
  if p = [] then some (.dir 0o755) else find p fs

/-- Path resolution: from the root, dropping empty and `.` elements and
resolving `..` lexically. -/
def toPath (name : String) : Path := cleanElems true (splitPath name)

/-- A name that a directory entry can have. -/
def isName (n : String) : Bool :=
  decide (n ≠ "") && decide (n ≠ ".") && decide (n ≠ "..") && !n.data.contains '/'

/-- The permission bits left by the process umask. -/
def clearBits (perm umask : Nat) : Nat := perm - (perm &&& umask)

/-- The check every system call makes on its path argument. -/
def checkPath (env : Env) (op name : String) : Option Error :=
  if name = "" then some (.sys op name .ENOENT)
  else if env.pathMax ≤ name.length then some (.sys op name .ENAMETOOLONG)
  else none

/-- Go `os.Lstat`. -/
def Lstat (env : Env) (fs : FS) (name : String) : Except Error Node :=
  match checkPath env "lstat" name with
  | some err => .error err
  | none =>
    match lookupNode fs (toPath name) with
    | some n => .ok n
    | none => .error (.sys "lstat" name .ENOENT)

/-- Go `os.Readlink`. -/
def Readlink (env : Env) (fs : FS) (name : String) : Except Error String :=
  match checkPath env "readlink" name with
  | some err => .error err
  | none =>
    match lookupNode fs (toPath name) with
    | some (.symlink target) => .ok target
    | some _ => .error (.sys "readlink" name .EINVAL)
    | none => .error (.sys "readlink" name .ENOENT)

/-- Whether the parent of a resolved path is a directory. -/
def parentIsDir (fs : FS) (p : Path) : Bool :=
  match lookupNode fs p.dropLast with
  | some (.dir _) => true
  | _ => false

/-- Go `os.Symlink`. -/
def Symlink (env : Env) (fs : FS) (oldname newname : String) : Except Error FS :=
  match checkPath env "symlink" newname with
  | some err => .error err
  | none =>
    match lookupNode fs (toPath newname) with
    | some _ => .error (.sys "symlink" newname .EEXIST)
    | none =>
      if parentIsDir fs (toPath newname) then .ok ((toPath newname, .symlink oldname) :: fs)
      else .error (.sys "symlink" newname .ENOENT)

/-- The recursion of Go `os.MkdirAll` on a resolved path, given innermost
element first: an existing directory is success, another existing entry is an
error, and a missing entry is created after its parent. -/
def mkdirAllPath (umask perm : Nat) : List String → FS → Except Errno FS
  | [], fs => .ok fs
  | n :: up, fs =>
    match lookupNode fs (n :: up).reverse with
    | some (.dir _) => .ok fs
    | some (.symlink _) => .error .EEXIST
    | some _ => .error .ENOTDIR
    | none =>
      match mkdirAllPath umask perm up fs with
      | .error e => .error e
      | .ok fs1 => .ok (((n :: up).reverse, .dir (clearBits perm umask)) :: fs1)

/-- Go `os.MkdirAll`. An over-long path is refused before any effect. -/
def MkdirAll (env : Env) (fs : FS) (path : String) (perm : Nat) : Except Error FS :=
  match checkPath env "mkdir" path with
  | some err => .error err
  | none =>
    match mkdirAllPath env.umask perm (toPath path).reverse fs with
    | .error e => .error (.sys "mkdir" path e)
    | .ok fs1 => .ok fs1

/-- The names of the entries of a directory, sorted. -/
def childNames (fs : FS) (p : Path) : List String :=
  sortStrings
    ((fs.filterMap (fun kn =>
      match kn.1.reverse with
      | [] => none
      | n :: up => if up.reverse = p ∧ isName n = true then some n else none)).dedup)

/-- Go `os.ReadDir`, reduced to the names of the entries. -/
def ReadDir (env : Env) (fs : FS) (name : String) : Except Error (List String) :=
  match checkPath env "open" name with
  | some err => .error err
  | none =>
    match lookupNode fs (toPath name) with
    | some (.dir _) => .ok (childNames fs (toPath name))
    | some (.symlink _) => .error (.sys "open" name .ENOENT)
    | some _ => .error (.sys "open" name .ENOTDIR)
    | none => .error (.sys "open" name .ENOENT)

/-- Go `os.Open`: the entry that the returned handle refers to. Regular files
and directories can be opened; a special file is refused. -/
def Open (env : Env) (fs : FS) (name : String) : Except Error Node :=
  match checkPath env "open" name with
  | some err => .error err
  | none =>
    match lookupNode fs (toPath name) with
    | some (.file perm content) => .ok (.file perm content)
    | some (.dir perm) => .ok (.dir perm)
    | some (.symlink _) => .error (.sys "open" name .ENOENT)
    | some (.other _) => .error (.sys "open" name .EOPNOTSUPP)
    | none => .error (.sys "open" name .ENOENT)

/-- Reading an open handle to the end, as `io.Copy` does. -/
def Node.readAll (name : String) : Node → Except Error Content
  | .file _ content => .ok content
  | _ => .error (.sys "read" name .EISDIR)

/-- Go `os.OpenFile(name, O_WRONLY|O_CREATE|O_TRUNC, perm)`, and `os.Create`
for `perm = 0666`: an existing regular file is truncated and keeps its mode, a
missing one is created empty in an existing directory. -/
def OpenFile (env : Env) (fs : FS) (name : String) (perm : Nat) : Except Error FS :=
  match checkPath env "open" name with
  | some err => .error err
  | none =>
    match lookupNode fs (toPath name) with
    | some (.file perm0 _) => .ok ((toPath name, .file perm0 (.bytes [])) :: fs)
    | some (.dir _) => .error (.sys "open" name .EISDIR)
    | some (.symlink _) => .error (.sys "open" name .ENOENT)
    | some (.other _) => .error (.sys "open" name .EOPNOTSUPP)
    | none =>
      if parentIsDir fs (toPath name) then
        .ok ((toPath name, .file (clearBits perm env.umask) (.bytes [])) :: fs)
      else .error (.sys "open" name .ENOENT)

/-- Writing `content` through a handle opened by `OpenFile` and closing it. -/
def writeFile (fs : FS) (name : String) (content : Content) : FS :=
  match lookupNode fs (toPath name) with
  | some (.file perm _) => (toPath name, .file perm content) :: fs
  | _ => fs

/-- Go `os.RemoveAll`: removes the entry and everything below it; a missing
path is not an error. -/
def RemoveAll (env : Env) (fs : FS) (path : String) : Except Error FS :=
  if path = "" then .ok fs
  else if (splitPath path).getLast? = some "." then .error (.sys "RemoveAll" path .EINVAL)
  else if env.pathMax ≤ path.length then .error (.sys "RemoveAll" path .ENAMETOOLONG)
  else .ok (fs.filter (fun kn => !(toPath path).isPrefixOf kn.1))

/-- Go `copyFile`: opens the source, creates or truncates the destination
with the mode of the source, and copies the bytes. (`srcFile.Stat` on an open
handle does not fail.) -/
def copyFile (env : Env) (src dst : String) (w : World) : Option Error × World :=
  match Open env w.fs src with
  | .error err => (some (.text ("ソースファイルを開けません: " ++ err.toStr)), w)
  | .ok srcFile =>
    match OpenFile env w.fs dst srcFile.Mode.perm with
    | .error err => (some (.text ("出力ファイルの作成に失敗しました: " ++ err.toStr)), w)
    | .ok fs1 =>
      match srcFile.readAll src with
      | .error err =>
        (some (.text ("ファイルのコピーに失敗しました: " ++ err.toStr)), { w with fs := fs1 })
      | .ok content => (none, { w with fs := writeFile fs1 dst content })

/-- The loop of `copyPath` over the entries of a directory; `copy` is the
recursive call. A failed entry is reported and the loop goes on. `none` is
returned only when a recursive call runs out of fuel. -/
def copyEntries (copy : String → String → World → Option (Option Error × World))
    (src dst : String) : List String → World → Option World
  | [], w => some w
  | name :: rest, w =>
    match copy (Join [src, name]) (Join [dst, name]) w with
    | none => none
    | some (some err, w1) =>
      copyEntries copy src dst rest
        (w1.printf ("WARNING: " ++ name ++ "のコピーに失敗しました: " ++ err.toStr ++ "\n"))
    | some (none, w1) => copyEntries copy src dst rest w1

/-- Go `copyPath`, with the depth of the recursion bounded by `fuel`; `none`
means that the fuel ran out. -/
def copyPathN (env : Env) : Nat → String → String → World → Option (Option Error × World)
  | 0, _, _, _ => none
  | fuel + 1, src, dst, w =>
    match Lstat env w.fs src with
    | .error err => some (some err, w)
    | .ok (.symlink _) =>
      match Readlink env w.fs src with
      | .error err => some (some err, w)
      | .ok linkTarget =>
        match Symlink env w.fs linkTarget dst with
        | .error err => some (some err, w)
        | .ok fs1 => some (none, { w with fs := fs1 })
    | .ok (.dir perm) =>
      match MkdirAll env w.fs dst perm with
      | .error err => some (some err, w)
      | .ok fs1 =>
        match ReadDir env fs1 src with
        | .error err => some (some err, { w with fs := fs1 })
        | .ok entries =>
          match copyEntries (copyPathN env fuel) src dst entries { w with fs := fs1 } with
          | none => none
          | some w2 => some (none, w2)
    | .ok _ => some (copyFile env src dst w)

/-- Go `copyPath`. The recursion descends one element of `dst` at a time and
stops where `os.MkdirAll` refuses the path as too long, so `pathMax + 1`
levels are enough (`copyPathN_fuel`); the default is never used. -/
def copyPath (env : Env) (src dst : String) (w : World) : Option Error × World :=
  (copyPathN env (env.pathMax + 1) src dst w).getD
    (some (.sys "lstat" src .ENAMETOOLONG), w)

/-! ## `src/backup.go`: the archive -/

/-- The state of the walk of `createZip`: the entries written to the archive
so far, and standard output. -/
structure ZipState where
  files : List ZipFile
  stdout : List String

/-- The function that `createZip` passes to `filepath.Walk`. It returns `nil`
on every path. (`zip.FileInfoHeader`, `archive.CreateHeader` and `io.Copy`
from a regular file do not fail in the model.) -/
def zipVisit (env : Env) (fs : FS) (src path : String) (info : Option Node)
    (err : Option Error) (st : ZipState) : Option Error × ZipState :=
  match err, info with
  | some e, _ =>
    (none, { st with stdout := st.stdout ++
      ["WARNING: " ++ path ++ "へのアクセス中にエラーが発生しました: " ++ e.toStr ++ "\n"] })
  | none, none => (none, st)
  | none, some info =>
    if info.Mode.kind = .symlink then
      (none, { st with stdout := st.stdout ++
        ["INFO: シンボリックリンク " ++ path ++ " をスキップします\n"] })
    else
      match Rel src path with
      | none =>
        (none, { st with stdout := st.stdout ++
          ["WARNING: " ++ path ++ " の相対パス計算に失敗しました\n"] })
      | some relPath =>
        if relPath = "." then (none, st)
        else if info.IsDir then
          (none, { st with files := st.files ++
            [ZipFile.mk (ToSlash relPath ++ "/") info.Mode (.bytes [])] })
        else if info.Mode.kind ≠ .regular then
          (none, { st with stdout := st.stdout ++
            ["INFO: 通常ファイルでない " ++ path ++ " をスキップします\n"] })
        else
          match Open env fs path with
          | .error e =>
            (none, { files := st.files ++ [ZipFile.mk (ToSlash relPath) info.Mode (.bytes [])],
                     stdout := st.stdout ++
                       ["WARNING: " ++ path ++ " を開けませんでした: " ++ e.toStr ++ "\n"] })
          | .ok file =>
            match file.readAll path with
            | .error e =>
              (none, { files := st.files ++
                         [ZipFile.mk (ToSlash relPath) info.Mode (.bytes [])],
                       stdout := st.stdout ++
                         ["WARNING: " ++ path ++ " の書き込みに失敗しました: " ++ e.toStr ++ "\n"] })
            | .ok content =>
              (none, { st with files := st.files ++
                [ZipFile.mk (ToSlash relPath) info.Mode content] })

/-- The type of the function passed to `filepath.Walk`. -/
abbrev WalkFunc (σ : Type) := String → Option Node → Option Error → σ → Option Error × σ

/-- The loop of `filepath.walk` over the sorted names of a directory; `walk`
is the recursive call. An error returned by the function stops the walk (the
sentinel `SkipDir` is not modelled: `zipVisit` never returns it). -/
def walkEntries {σ : Type} (env : Env) (fs : FS) (fn : WalkFunc σ)
    (walk : String → Node → σ → Option (Option Error × σ)) (path : String) :
    List String → σ → Option (Option Error × σ)
  | [], st => some (none, st)
  | name :: rest, st =>
    match Lstat env fs (Join [path, name]) with
    | .error err =>
      match fn (Join [path, name]) none (some err) st with
      | (some e, st1) => some (some e, st1)
      | (none, st1) => walkEntries env fs fn walk path rest st1
    | .ok fileInfo =>
      match walk (Join [path, name]) fileInfo st with
      | none => none
      | some (some e, st1) => some (some e, st1)
      | some (none, st1) => walkEntries env fs fn walk path rest st1

/-- Go `filepath.walk`, with the depth of the recursion bounded by `fuel`. -/
def walkN {σ : Type} (env : Env) (fs : FS) (fn : WalkFunc σ) :
    Nat → String → Node → σ → Option (Option Error × σ)
  | 0, _, _, _ => none
  | fuel + 1, path, info, st =>
    if !info.IsDir then some (fn path (some info) none st)
    else
      match ReadDir env fs path with
      | .error err => some (fn path (some info) (some err) st)
      | .ok names =>
        match fn path (some info) none st with
        | (some e, st1) => some (some e, st1)
        | (none, st1) => walkEntries env fs fn (walkN env fs fn fuel) path names st1

/-- Go `filepath.Walk`. Every level of the recursion follows a successful
`os.Lstat` of a path one element longer, so `pathMax + 1` levels are enough
(`Walk_fuel`); the default is never used. -/
def Walk {σ : Type} (env : Env) (fs : FS) (root : String) (fn : WalkFunc σ) (st : σ) :
    Option Error × σ :=
  match Lstat env fs root with
  | .error err => fn root none (some err) st
  | .ok info => (walkN env fs fn (env.pathMax + 1) root info st).getD (none, st)

/-- Go `createZip`: creates the archive file, walks `src` and, when the
deferred `archive.Close` and `zipfile.Close` run, leaves the entries written
so far in the file. -/
def createZip (env : Env) (src dst : String) (w : World) : Option Error × World :=
  match OpenFile env w.fs dst 0o666 with
  | .error err => (some (.text ("ZIP ファイルの作成に失敗しました: " ++ err.toStr)), w)
  | .ok fs1 =>
    match Walk env fs1 src (zipVisit env fs1 src) { files := [], stdout := w.stdout } with
    | (some err, st) =>
      (some (.text ("ZIP ファイルの作成中にエラーが発生しました: " ++ err.toStr)),
        { fs := writeFile fs1 dst (.zip st.files), stdout := st.stdout })
    | (none, st) => (none, { fs := writeFile fs1 dst (.zip st.files), stdout := st.stdout })

/-! ## `src/backup.go`: staging -/

/-- Go `BackupItem` (`src/main.go`). -/
structure BackupItem where
  Name : String
  Selected : Bool
  deriving DecidableEq, Repr

/-- The catalog that `backupCmd` builds (`src/main.go`, lines 39 to 47). -/
def backupCmdItems : List BackupItem :=
  [ { Name := "Homebrew 管轄のアプリケーション群", Selected := true },
    { Name := "dotfile 群", Selected := true },
    { Name := "Documents", Selected := true },
    { Name := "Pictures", Selected := true },
    { Name := "Downloads", Selected := true },
    { Name := "Movies", Selected := true },
    { Name := "Music", Selected := true } ]

/-- Go `backupHomebrew`: runs `brew bundle dump` in the backup directory. -/
def backupHomebrew (env : Env) (backupDir : String) (w : World) : Option Error × World :=
  env.brewBundleDump backupDir w

/-- A Go `map[string]bool`, most recent assignment first. -/
abbrev BoolMap := List (String × Bool)

/-- Indexing a Go `map[string]bool`: `false` for a missing key. -/
def BoolMap.get (m : BoolMap) (key : String) : Bool :=
  match m with
  | [] => false
  | (k, v) :: rest => if k = key then v else BoolMap.get rest key

/-- The first loop of `backupDotfiles` and the three default assignments that
follow it. -/
def backupExcludeMap (excludeFiles : List String) : BoolMap :=
  (".DS_Store", true) :: (".Trash", true) :: (".CFUserTextEncoding", true) ::
    excludeFiles.foldl (fun m file => (file, true) :: m) []

/-- The end of the body of the second loop of `backupDotfiles`: the copy of
one entry of the home directory, and the report of its failure. -/
def stageDotfile (env : Env) (homeDir dotfilesDir name : String) (w : World) : World :=
  match copyPath env (Join [homeDir, name]) (Join [dotfilesDir, name]) w with
  | (some err, w1) =>
    w1.printf ("WARNING: " ++ name ++ " のコピーに失敗しました: " ++ err.toStr ++ "\n")
  | (none, w1) => w1

/-- The second loop of `backupDotfiles`, over the entries of the home
directory. -/
def backupDotfilesLoop (env : Env) (excludeMap : BoolMap) (homeDir dotfilesDir : String) :
    List String → World → World
  | [], w => w
  | name :: rest, w =>
    if !HasPrefix name "." then backupDotfilesLoop env excludeMap homeDir dotfilesDir rest w
    else if excludeMap.get name then
      backupDotfilesLoop env excludeMap homeDir dotfilesDir rest w
    else
      backupDotfilesLoop env excludeMap homeDir dotfilesDir rest
        (stageDotfile env homeDir dotfilesDir name w)

/-- Go `backupDotfiles`. -/
def backupDotfiles (env : Env) (backupDir : String) (w : World) : Option Error × World :=
  match MkdirAll env w.fs (Join [backupDir, "dotfiles"]) 0o755 with
  | .error err => (some err, w)
  | .ok fs1 =>
    match ReadDir env fs1 env.HOME with
    | .error err => (some err, { w with fs := fs1 })
    | .ok entries =>
      (none, backupDotfilesLoop env (backupExcludeMap env.excludeFiles) env.HOME
        (Join [backupDir, "dotfiles"]) entries { w with fs := fs1 })

/-- Go `backupUserFiles`: a failed copy is reported and `nil` is returned. -/
def backupUserFiles (env : Env) (backupDir dirName : String) (w : World) :
    Option Error × World :=
  match MkdirAll env w.fs (Join [backupDir, "userfiles", dirName]) 0o755 with
  | .error err => (some err, w)
  | .ok fs1 =>
    match copyPath env (Join [env.HOME, dirName]) (Join [backupDir, "userfiles", dirName])
        { w with fs := fs1 } with
    | (some err, w1) =>
      (none, w1.printf ("WARNING: " ++ dirName ++
        " ディレクトリのバックアップ中にエラーが発生しました: " ++ err.toStr ++ "\n"))
    | (none, w1) => (none, w1)

/-- The body of the loop of `performBackup` for one selected item: the
`switch` on the name of the item. -/
def backupItem (env : Env) (backupDir : String) (item : BackupItem) (w : World) :
    Option Error × World :=
  if item.Name = "Homebrew 管轄のアプリケーション群" then
    match backupHomebrew env backupDir
        (w.printf "Homebrew 管轄のアプリケーション群をバックアップ中...\n") with
    | (some err, w1) =>
      (some (.text ("Homebrew 管轄のアプリケーション群のバックアップに失敗しました: " ++
        err.toStr)), w1)
    | (none, w1) => (none, w1)
  else if item.Name = "dotfile群" then
    match backupDotfiles env backupDir (w.printf "dotfile 群をバックアップ中...\n") with
    | (some err, w1) =>
      (some (.text ("dotfile のバックアップに失敗しました: " ++ err.toStr)), w1)
    | (none, w1) => (none, w1)
  else
    match backupUserFiles env backupDir item.Name
        (w.printf (item.Name ++ " をバックアップ中...\n")) with
    | (some err, w1) =>
      (some (.text (item.Name ++ " のバックアップに失敗しました: " ++ err.toStr)), w1)
    | (none, w1) => (none, w1)

/-- The loop of `performBackup` over the items: unselected items are skipped,
and the first failure is returned. -/
def backupItems (env : Env) (backupDir : String) : List BackupItem → World → Option Error × World
  | [], w => (none, w)
  | item :: rest, w =>
    if !item.Selected then backupItems env backupDir rest w
    else
      match backupItem env backupDir item w with
      | (some err, w1) => (some err, w1)
      | (none, w1) => backupItems env backupDir rest w1

/-- The staging directory of `performBackup`. -/
def backupDirOf (env : Env) : String :=
  Join [env.HOME ++ "/Desktop", "pceamless_backup_" ++ env.timestamp]

/-- Go `performBackup`. -/
def performBackup (env : Env) (items : List BackupItem) (w : World) : Option Error × World :=
  match MkdirAll env w.fs (backupDirOf env) 0o755 with
  | .error err =>
    (some (.text ("バックアップディレクトリの作成に失敗しました: " ++ err.toStr)), w)
  | .ok fs1 =>
    match backupItems env (backupDirOf env) items { w with fs := fs1 } with
    | (some err, w1) => (some err, w1)
    | (none, w1) =>
      match createZip env (backupDirOf env) (backupDirOf env ++ ".zip") w1 with
      | (some err, w2) => (some (.text ("ZIP ファイルの作成に失敗しました: " ++ err.toStr)), w2)
      | (none, w2) =>
        match RemoveAll env w2.fs (backupDirOf env) with
        | .error err =>
          (none, (w2.printf ("WARNING: バックアップ用の一時ディレクトリの削除に失敗しました: " ++
            err.toStr ++ "\n")).printf
            "バックアップ完了。デスクトップに作られた ZIP ファイルを新しい PC のデスクトップにコピーしてください\n")
        | .ok fs3 =>
          (none, ({ w2 with fs := fs3 } : World).printf
            "バックアップ完了。デスクトップに作られた ZIP ファイルを新しい PC のデスクトップにコピーしてください\n")

/-! ## `src/restore.go` -/

/-- Go `time.Time`, as seconds since the epoch and nanoseconds within the
second. -/
structure Time where
  sec : Int
  nsec : Nat
  deriving DecidableEq, Repr

/-- Go `Time.Unix`. -/
def Time.Unix (t : Time) : Int := t.sec

/-- Go `fs.DirEntry` as `os.ReadDir` returns it: the name, and what `Info`
returns, the modification time or an error. -/
structure DirEntry where
  Name : String
  Info : Except Error Time

/-- The loop of `findLatestBackupZip`. -/
def findLatestLoop (dir : String) : List DirEntry → String × Int → String × Int
  | [], acc => acc
  | entry :: rest, (latest, latestTime) =>
    if !HasPrefix entry.Name "pceamless_backup_" || !HasSuffix entry.Name ".zip" then
      findLatestLoop dir rest (latest, latestTime)
    else
      match entry.Info with
      | .error _ => findLatestLoop dir rest (latest, latestTime)
      | .ok modTime =>
        if modTime.Unix > latestTime then
          findLatestLoop dir rest (Join [dir, entry.Name], modTime.Unix)
        else findLatestLoop dir rest (latest, latestTime)

/-- Go `findLatestBackupZip`; `listing` is the result of `os.ReadDir(dir)`. -/
def findLatestBackupZip (dir : String) (listing : Except Error (List DirEntry)) :
    Except Error String :=
  match listing with
  | .error err => .error err
  | .ok entries =>
    if (findLatestLoop dir entries ("", 0)).1 = "" then
      .error (.text "バックアップ ZIP ファイルが見つかりません")
    else .ok (findLatestLoop dir entries ("", 0)).1

/-- The names of the entries of the archive stored at a path, if there is
one. -/
def archiveNames (fs : FS) (name : String) : Option (List String) :=
  match lookupNode fs (toPath name) with
  | some (.file _ (.zip files)) => some (files.map ZipFile.Name)
  | _ => none

/-- An environment for the examples: `brew` succeeds and leaves no file. -/
def demoEnv : Env :=
  { HOME := "/Users/u", umask := 0o022, pathMax := 1024, timestamp := "20240101000000",
    excludeFiles := [".config"], restoreExcludeFiles := ["bashrc", ".vimrc"],
    brewBundleDump := fun _ w => (none, w) }

/-- A home directory with three dot entries and a desktop. -/
def demoWorld : World :=
  { fs := [ (["Users"], .dir 0o755), (["Users", "u"], .dir 0o755),
            (["Users", "u", "Desktop"], .dir 0o755),
            (["Users", "u", ".bashrc"], .file 0o644 (.bytes [35, 33])),
            (["Users", "u", ".config"], .dir 0o700),
            (["Users", "u", ".DS_Store"], .file 0o644 (.bytes [0])) ],
    stdout := [] }

/-! ## Vocabulary of the statements -/

/-- What an operation that writes at or below `D` may do to the file system:
every path keeps its entry, except that at or below `D` a missing entry may
appear and a regular file may get a new content, and that a missing ancestor
of `D` may appear as a directory. Nothing is removed, and no existing
directory, link or special file is altered. -/
def Grows (D : Path) (fs fs' : FS) : Prop :=
  ∀ p : Path,
    lookupNode fs' p = lookupNode fs p ∨
    (D <+: p ∧ (lookupNode fs p = none ∨
      ∃ perm c c', lookupNode fs p = some (.file perm c) ∧
        lookupNode fs' p = some (.file perm c'))) ∨
    (p <+: D ∧ lookupNode fs p = none ∧ ∃ perm, lookupNode fs' p = some (.dir perm))

/-- The body of the loop of `copyPath` for one entry of the directory: the
copy of the entry and the report of its failure. -/
def copyChild (env : Env) (src dst : String) (w : World) (name : String) : World :=
  match copyPath env (Join [src, name]) (Join [dst, name]) w with
  | (some err, w1) =>
    w1.printf ("WARNING: " ++ name ++ "のコピーに失敗しました: " ++ err.toStr ++ "\n")
  | (none, w1) => w1

/-- The weight of a list of elements: the length of the joined path, plus
one. -/
def weight (es : List String) : Nat := (es.map (fun e => e.length + 1)).sum

/-- A desktop listing with three archives and another file. -/
def latestListing : List DirEntry :=
  [ { Name := "pceamless_backup_20240101000000.zip", Info := .ok ⟨1704067200, 0⟩ },
    { Name := "notes.txt", Info := .ok ⟨1800000000, 0⟩ },
    { Name := "pceamless_backup_20240301000000.zip", Info := .ok ⟨1709251200, 5⟩ },
    { Name := "pceamless_backup_20240201000000.zip", Info := .ok ⟨1706745600, 0⟩ } ]

/-- A staged tree at the resolved path `S`: `S` is a directory, and below it
the file system holds only directories and regular files, each of them in a
directory and under names that a directory entry can have. -/
def StagedTree (fs : FS) (S : Path) : Prop :=
  (∃ perm, lookupNode fs S = some (.dir perm)) ∧
  ∀ (r : List String) (n : Node), r ≠ [] → lookupNode fs (S ++ r) = some n →
    ((∃ perm c, n = .file perm c) ∨ ∃ perm, n = .dir perm) ∧
    (∃ perm, lookupNode fs (S ++ r.dropLast) = some (.dir perm)) ∧
    ∀ e ∈ r, isName e = true

/-- A position of the walk: the path `P` names the entry of the tree at the
relative path `r`. -/
structure WalkPos (src P : String) (r : List String) : Prop where
  ne : P ≠ ""
  path : toPath P = toPath src ++ r
  rooted : HasPrefix P "/" = HasPrefix src "/"
  elems : cleanElems (HasPrefix src "/") (splitPath P) =
    cleanElems (HasPrefix src "/") (splitPath src) ++ r
  len : P.length ≤ src.length + weight r

/-! # Theorems -/

/-! ## Facts about strings and paths -/

theorem str_ne_empty_of_length {s : String} (h : 0 < s.length) : s ≠ "" := by
  intro hs; subst hs; simp at h

theorem cleanStep_nonempty (r : Bool) (out : List String) (e : String)
    (h : ∀ x ∈ out, x ≠ "") : ∀ x ∈ cleanStep r out e, x ≠ "" := by
  unfold cleanStep
  split
  · exact h
  · split
    · cases out with
      | nil =>
        cases r <;> simp
      | cons top rest =>
        simp only
        split
        · intro x hx
          rcases List.mem_cons.1 hx with hx | hx
          · subst hx; decide
          · exact h x hx
        · intro x hx
          exact h x (List.mem_cons_of_mem _ hx)
    · rename_i h1 _
      intro x hx
      rcases List.mem_cons.1 hx with hx | hx
      · subst hx; exact fun h0 => h1 (Or.inl h0)
      · exact h x hx

theorem foldl_cleanStep_nonempty (r : Bool) (es out : List String)
    (h : ∀ x ∈ out, x ≠ "") : ∀ x ∈ es.foldl (cleanStep r) out, x ≠ "" := by
  induction es generalizing out with
  | nil => simpa using h
  | cons e es ih => exact ih _ (cleanStep_nonempty r out e h)

theorem cleanElems_nonempty (r : Bool) (es : List String) :
    ∀ x ∈ cleanElems r es, x ≠ "" := by
  intro x hx
  unfold cleanElems at hx
  exact foldl_cleanStep_nonempty r es [] (by simp) x (List.mem_reverse.1 hx)

theorem joinSep_ne_empty (out : List String) (hne : out ≠ [])
    (h : ∀ x ∈ out, x ≠ "") : joinSep out ≠ "" := by
  cases out with
  | nil => exact absurd rfl hne
  | cons e es =>
    cases es with
    | nil => simpa [joinSep] using h e (by simp)
    | cons e2 es2 =>
      apply str_ne_empty_of_length
      have h1 : "/".length = 1 := rfl
      simp only [joinSep, String.length_append, h1]
      omega

theorem Clean_ne_empty (path : String) : Clean path ≠ "" := by
  unfold Clean
  split
  · decide
  · simp only
    split
    · apply str_ne_empty_of_length
      have h1 : "/".length = 1 := rfl
      simp only [String.length_append, h1]
      omega
    · split
      · decide
      · rename_i hout
        exact joinSep_ne_empty _ hout (cleanElems_nonempty _ _)

theorem Join_pair_ne_empty (dir name : String) (h : name ≠ "") : Join [dir, name] ≠ "" := by
  unfold Join
  by_cases hd : dir = ""
  · subst hd
    simp [List.dropWhile, h, Clean_ne_empty]
  · simp [List.dropWhile, hd, Clean_ne_empty]

/-! ## Splitting a path into elements -/

theorem splitSep_ne_nil (cs : List Char) : splitSep cs ≠ [] := by
  cases cs with
  | nil => simp [splitSep]
  | cons c cs =>
    unfold splitSep
    split
    · simp
    · split <;> simp

theorem splitSep_cons_of_ne (c : Char) (a e : List Char) (es : List (List Char))
    (hc : c ≠ '/') (h : splitSep a = e :: es) : splitSep (c :: a) = (c :: e) :: es := by
  rw [splitSep]
  simp [hc, h]

theorem splitSep_append_sep (a b : List Char) :
    splitSep (a ++ '/' :: b) = splitSep a ++ splitSep b := by
  induction a with
  | nil => simp [splitSep]
  | cons c a ih =>
    by_cases hc : c = '/'
    · subst hc
      simp [splitSep, ih]
    · cases hsa : splitSep a with
      | nil => exact absurd hsa (splitSep_ne_nil a)
      | cons e es =>
        rw [List.cons_append, splitSep_cons_of_ne c _ e (es ++ splitSep b) hc (by rw [ih, hsa]; rfl),
          splitSep_cons_of_ne c a e es hc hsa]
        rfl

theorem splitSep_no_sep (a : List Char) (h : '/' ∉ a) : splitSep a = [a] := by
  induction a with
  | nil => rfl
  | cons c a ih =>
    have hc : c ≠ '/' := fun hc => h (by simp [hc])
    have ha : '/' ∉ a := fun ha => h (List.mem_cons_of_mem _ ha)
    rw [splitSep]
    simp [hc, ih ha]

theorem mem_splitSep_no_sep (a e : List Char) (he : e ∈ splitSep a) : '/' ∉ e := by
  induction a generalizing e with
  | nil =>
    simp [splitSep] at he
    subst he
    simp
  | cons c a ih =>
    by_cases hc : c = '/'
    · subst hc
      simp only [splitSep, if_true, List.mem_cons] at he
      rcases he with h | h
      · subst h; simp
      · exact ih e h
    · rw [splitSep] at he
      simp only [hc, if_false] at he
      cases hsa : splitSep a with
      | nil => exact absurd hsa (splitSep_ne_nil a)
      | cons e1 es =>
        rw [hsa] at he
        simp only [List.mem_cons] at he
        rcases he with h | h
        · subst h
          have := ih e1 (by rw [hsa]; simp)
          simp only [List.mem_cons, not_or]
          exact ⟨fun h => hc h.symm, this⟩
        · exact ih e (by rw [hsa]; simp [h])

theorem splitSep_sum_length (a : List Char) :
    ((splitSep a).map List.length).sum ≤ a.length := by
  induction a with
  | nil => simp [splitSep]
  | cons c a ih =>
    by_cases hc : c = '/'
    · subst hc
      simp only [splitSep, if_true, List.map_cons, List.length_nil, List.sum_cons, zero_add,
        List.length_cons]
      omega
    · rw [splitSep]
      simp only [hc, if_false]
      cases hsa : splitSep a with
      | nil => exact absurd hsa (splitSep_ne_nil a)
      | cons e1 es =>
        rw [hsa] at ih
        simp only [List.map_cons, List.sum_cons, List.length_cons] at ih ⊢
        omega

theorem splitPath_append_sep (a b : String) :
    splitPath (a ++ "/" ++ b) = splitPath a ++ splitPath b := by
  unfold splitPath
  have : (a ++ "/" ++ b).data = a.data ++ '/' :: b.data := by
    simp [String.data_append]
  rw [this, splitSep_append_sep, List.map_append]

theorem splitPath_slash_append (b : String) :
    splitPath ("/" ++ b) = "" :: splitPath b := by
  unfold splitPath
  have : ("/" ++ b).data = [] ++ '/' :: b.data := by
    simp [String.data_append]
  rw [this, splitSep_append_sep]
  rfl

theorem splitPath_no_sep (a : String) (h : '/' ∉ a.data) : splitPath a = [a] := by
  unfold splitPath
  rw [splitSep_no_sep _ h]
  rfl

theorem mem_splitPath_no_sep (a e : String) (he : e ∈ splitPath a) : '/' ∉ e.data := by
  unfold splitPath at he
  obtain ⟨x, hx, rfl⟩ := List.mem_map.1 he
  exact mem_splitSep_no_sep _ _ hx

theorem splitPath_joinSep (l : List String) (hne : l ≠ []) (h : ∀ e ∈ l, '/' ∉ e.data) :
    splitPath (joinSep l) = l := by
  induction l with
  | nil => exact absurd rfl hne
  | cons e es ih =>
    cases es with
    | nil => exact splitPath_no_sep e (h e (by simp))
    | cons e2 es2 =>
      have : joinSep (e :: e2 :: es2) = e ++ "/" ++ joinSep (e2 :: es2) := rfl
      rw [this, splitPath_append_sep, splitPath_no_sep e (h e (by simp)),
        ih (by simp) (fun x hx => h x (List.mem_cons_of_mem _ hx))]
      rfl

theorem splitPath_sum_length (s : String) :
    ((splitPath s).map String.length).sum ≤ s.length := by
  unfold splitPath
  rw [List.map_map]
  have : (String.length ∘ String.mk) = List.length := rfl
  rw [this]
  exact splitSep_sum_length s.data

/-! ## Names -/

theorem isName_iff (n : String) :
    isName n = true ↔ n ≠ "" ∧ n ≠ "." ∧ n ≠ ".." ∧ '/' ∉ n.data := by
  unfold isName
  simp only [Bool.and_eq_true, decide_eq_true_eq, Bool.not_eq_true', and_assoc]
  have : (n.data.contains '/' = false) ↔ '/' ∉ n.data := by
    rw [← Bool.not_eq_true, List.contains_iff_exists_mem_beq]
    simp
  rw [this]

/-! ## Cleaning -/

theorem cleanStep_name (r : Bool) (out : List String) (e : String)
    (h1 : e ≠ "") (h2 : e ≠ ".") (h3 : e ≠ "..") : cleanStep r out e = e :: out := by
  unfold cleanStep
  rw [if_neg (by rintro (h | h); exacts [h1 h, h2 h]), if_neg h3]

theorem cleanStep_skip (r : Bool) (out : List String) (e : String) (h : e = "" ∨ e = ".") :
    cleanStep r out e = out := by
  unfold cleanStep
  rw [if_pos h]

theorem foldl_cleanStep_nodots (r : Bool) (es out : List String) (h : ∀ e ∈ es, e ≠ "..") :
    es.foldl (cleanStep r) out =
      (es.filter (fun e => decide (e ≠ "") && decide (e ≠ "."))).reverse ++ out := by
  induction es generalizing out with
  | nil => rfl
  | cons e es ih =>
    have h' : ∀ x ∈ es, x ≠ ".." := fun x hx => h x (List.mem_cons_of_mem _ hx)
    have he := h e (List.mem_cons_self _ _)
    rw [List.foldl_cons, ih _ h']
    by_cases hk : e = "" ∨ e = "."
    · rw [cleanStep_skip r out e hk]
      rw [List.filter_cons_of_neg]
      rcases hk with hk | hk <;> simp [hk]
    · push_neg at hk
      rw [cleanStep_name r out e hk.1 hk.2 he]
      rw [List.filter_cons_of_pos (by simp [hk.1, hk.2])]
      simp

theorem foldl_cleanStep_names (r : Bool) (es out : List String)
    (h : ∀ e ∈ es, isName e = true) : es.foldl (cleanStep r) out = es.reverse ++ out := by
  rw [foldl_cleanStep_nodots r es out (fun e he => ((isName_iff e).1 (h e he)).2.2.1)]
  congr 2
  apply List.filter_eq_self.2
  intro e he
  have := (isName_iff e).1 (h e he)
  simp [this.1, this.2.1]

/-- The elements that cleaning keeps are names, when the path is rooted. -/
theorem foldl_cleanStep_true_isName (es out : List String) (h : ∀ e ∈ out, isName e = true)
    (hes : ∀ e ∈ es, '/' ∉ e.data) :
    ∀ e ∈ es.foldl (cleanStep true) out, isName e = true := by
  induction es generalizing out with
  | nil => simpa using h
  | cons e es ih =>
    apply ih _ _ (fun x hx => hes x (List.mem_cons_of_mem _ hx))
    intro x hx
    unfold cleanStep at hx
    split at hx
    · exact h x hx
    · rename_i h1
      split at hx
      · cases out with
        | nil => simp at hx
        | cons top rest =>
          simp only at hx
          have htop : top ≠ ".." := fun ht =>
            by have := (isName_iff top).1 (h top (by simp)); exact this.2.2.1 ht
          rw [if_neg htop] at hx
          exact h x (List.mem_cons_of_mem _ hx)
      · rename_i h2
        rcases List.mem_cons.1 hx with hx | hx
        · subst hx
          push_neg at h1
          exact (isName_iff x).2 ⟨h1.1, h1.2, h2, hes x (List.mem_cons_self _ _)⟩
        · exact h x hx

theorem toPath_isName (s : String) : ∀ e ∈ toPath s, isName e = true := by
  intro e he
  unfold toPath cleanElems at he
  exact foldl_cleanStep_true_isName _ [] (by simp) (fun x hx => mem_splitPath_no_sep s x hx) e
    (List.mem_reverse.1 he)

/-- Cleaning a relative path keeps what cleaning it as a rooted path keeps,
below a run of `..` elements. -/
theorem foldl_cleanStep_false_true (es outT : List String) (k : Nat)
    (hT : ∀ e ∈ outT, e ≠ "..") :
    ∃ k', es.foldl (cleanStep false) (outT ++ List.replicate k "..") =
        es.foldl (cleanStep true) outT ++ List.replicate k' ".." ∧
      ∀ e ∈ es.foldl (cleanStep true) outT, e ≠ ".." := by
  induction es generalizing outT k with
  | nil => exact ⟨k, rfl, by simpa using hT⟩
  | cons e es ih =>
    simp only [List.foldl_cons]
    by_cases hk : e = "" ∨ e = "."
    · rw [cleanStep_skip _ _ e hk, cleanStep_skip _ _ e hk]
      exact ih outT k hT
    · by_cases hd : e = ".."
      · subst hd
        cases outT with
        | nil =>
          have h1 : cleanStep true [] ".." = [] := by simp [cleanStep]
          have h2 : cleanStep false ([] ++ List.replicate k "..") ".." =
              [] ++ List.replicate (k + 1) ".." := by
            cases k with
            | zero => simp [cleanStep]
            | succ k => simp [cleanStep, List.replicate_succ]
          rw [h1, h2]
          exact ih [] (k + 1) (by simp)
        | cons top rest =>
          have htop : top ≠ ".." := hT top (by simp)
          have h1 : cleanStep true (top :: rest) ".." = rest := by simp [cleanStep, htop]
          have h2 : cleanStep false (top :: rest ++ List.replicate k "..") ".." =
              rest ++ List.replicate k ".." := by simp [cleanStep, htop]
          rw [h1, h2]
          exact ih rest k (fun x hx => hT x (List.mem_cons_of_mem _ hx))
      · push_neg at hk
        rw [cleanStep_name _ _ e hk.1 hk.2 hd, cleanStep_name _ _ e hk.1 hk.2 hd]
        have := ih (e :: outT) k (by
          intro x hx
          rcases List.mem_cons.1 hx with hx | hx
          · subst hx; exact hd
          · exact hT x hx)
        simpa using this

theorem toPath_eq (s : String) :
    toPath s = ((splitPath s).foldl (cleanStep true) []).reverse := rfl

theorem toPath_append_sep_nodots (d name : String) (h : ∀ e ∈ splitPath name, e ≠ "..") :
    toPath (d ++ "/" ++ name) =
      toPath d ++ (splitPath name).filter (fun e => decide (e ≠ "") && decide (e ≠ ".")) := by
  rw [toPath_eq, toPath_eq, splitPath_append_sep, List.foldl_append,
    foldl_cleanStep_nodots true _ _ h]
  simp

theorem toPath_append_sep_name (d n : String) (hn : isName n = true) :
    toPath (d ++ "/" ++ n) = toPath d ++ [n] := by
  have h := (isName_iff n).1 hn
  have hs : splitPath n = [n] := splitPath_no_sep n h.2.2.2
  rw [toPath_append_sep_nodots d n (by rw [hs]; simpa using h.2.2.1), hs]
  rw [List.filter_cons_of_pos (by simp [h.1, h.2.1])]
  rfl

theorem foldl_cleanStep_true_dots (k : Nat) :
    (List.replicate k "..").foldl (cleanStep true) [] = [] := by
  induction k with
  | zero => rfl
  | succ k ih =>
    rw [List.replicate_succ, List.foldl_cons]
    have : cleanStep true [] ".." = [] := by simp [cleanStep]
    rw [this, ih]

theorem str_length_pos {s : String} (h : s ≠ "") : 0 < s.length := by
  obtain ⟨d⟩ := s
  cases d with
  | nil => exact absurd rfl h
  | cons c cs => simp [String.length]

/-- Resolution does not depend on cleaning: `Clean` is lexical. -/
theorem toPath_Clean (s : String) : toPath (Clean s) = toPath s := by
  unfold Clean
  split
  · rename_i h; subst h; rfl
  · simp only
    split
    · -- rooted
      rename_i hne hr
      rw [hr]
      have hout : cleanElems true (splitPath s) = toPath s := rfl
      rw [hout]
      rw [toPath_eq ("/" ++ _), splitPath_slash_append, List.foldl_cons,
        cleanStep_skip true [] "" (Or.inl rfl)]
      by_cases he : toPath s = []
      · rw [he]; rfl
      · rw [splitPath_joinSep _ he
          (fun e hx => ((isName_iff e).1 (toPath_isName s e hx)).2.2.2),
          foldl_cleanStep_names true _ _ (toPath_isName s)]
        simp
    · rename_i hne hr
      have hr' : HasPrefix s "/" = false := by simpa using hr
      rw [hr']
      obtain ⟨k, hk, hT⟩ := foldl_cleanStep_false_true (splitPath s) [] 0 (by simp)
      simp only [List.nil_append, List.replicate_zero] at hk
      have hnames : ∀ e ∈ (splitPath s).foldl (cleanStep true) [], isName e = true :=
        foldl_cleanStep_true_isName _ [] (by simp) (fun x hx => mem_splitPath_no_sep s x hx)
      have hout : cleanElems false (splitPath s) =
          List.replicate k ".." ++ toPath s := by
        unfold cleanElems
        rw [hk, toPath_eq]
        simp
      split
      · rename_i hnil
        rw [hout] at hnil
        have : toPath s = [] := (List.append_eq_nil.1 hnil).2
        rw [this]; rfl
      · rename_i hnn
        rw [hout] at hnn ⊢
        rw [toPath_eq (joinSep _), splitPath_joinSep _ hnn, List.foldl_append,
          foldl_cleanStep_true_dots, foldl_cleanStep_names true _ _ (toPath_isName s)]
        · simp
        · intro e he
          rcases List.mem_append.1 he with h | h
          · rw [List.eq_of_mem_replicate h]; decide
          · exact ((isName_iff e).1 (toPath_isName s e h)).2.2.2

theorem Join_pair (d n : String) (hd : d ≠ "") : Join [d, n] = Clean (d ++ "/" ++ n) := by
  unfold Join
  simp [List.dropWhile, hd, joinSep]

theorem toPath_Join_name (d n : String) (hd : d ≠ "") (hn : isName n = true) :
    toPath (Join [d, n]) = toPath d ++ [n] := by
  rw [Join_pair d n hd, toPath_Clean, toPath_append_sep_name d n hn]

theorem cleanStep_length (r : Bool) (out : List String) (e : String) :
    (cleanStep r out e).length ≤ out.length + e.length := by
  unfold cleanStep
  split
  · omega
  · rename_i h1
    split
    · rename_i h2
      subst h2
      have : "..".length = 2 := rfl
      cases out with
      | nil => cases r <;> (simp; try omega)
      | cons top rest =>
        simp only
        split <;> (simp; try omega)
    · push_neg at h1
      have := str_length_pos h1.1
      simp
      omega

theorem foldl_cleanStep_length (r : Bool) (es out : List String) :
    (es.foldl (cleanStep r) out).length ≤ out.length + (es.map String.length).sum := by
  induction es generalizing out with
  | nil => simp
  | cons e es ih =>
    rw [List.foldl_cons]
    have h1 := ih (cleanStep r out e)
    have h2 := cleanStep_length r out e
    simp only [List.map_cons, List.sum_cons]
    omega

/-- A resolved path has at most as many elements as the path has bytes. -/
theorem toPath_length_le (s : String) : (toPath s).length ≤ s.length := by
  rw [toPath_eq, List.length_reverse]
  have h1 := foldl_cleanStep_length true (splitPath s) []
  have h2 := splitPath_sum_length s
  simp only [List.length_nil, zero_add] at h1
  omega

/-! ## `filepath.Dir` -/

theorem Join_pair_eq_Clean (d n : String) (h : d ≠ "" ∨ n ≠ "") :
    ∃ x, Join [d, n] = Clean x ∧ toPath x = toPath (d ++ "/" ++ n) := by
  by_cases hd : d = ""
  · subst hd
    have hn : n ≠ "" := by
      rcases h with h | h
      · exact absurd rfl h
      · exact h
    refine ⟨n, ?_, ?_⟩
    · unfold Join
      simp [List.dropWhile, hn, joinSep]
    · have : "" ++ "/" ++ n = "/" ++ n := by
        apply String.ext; simp [String.data_append]
      rw [this, toPath_eq ("/" ++ n), splitPath_slash_append, List.foldl_cons,
        cleanStep_skip true [] "" (Or.inl rfl)]
      rfl
  · exact ⟨d ++ "/" ++ n, Join_pair d n hd, rfl⟩

theorem findLatestLoop_keep (dir : String) (e : DirEntry) (t : Time) (hi : e.Info = .ok t)
    (l : List DirEntry)
    (hmax : ∀ e' ∈ l, ∀ t', HasPrefix e'.Name "pceamless_backup_" = true →
      HasSuffix e'.Name ".zip" = true → e'.Info = .ok t' → e' = e ∨ t'.Unix < t.Unix) :
    findLatestLoop dir l (Join [dir, e.Name], t.Unix) = (Join [dir, e.Name], t.Unix) := by
  induction l with
  | nil => rfl
  | cons x xs ih =>
    have ih' := ih (fun e' he' => hmax e' (List.mem_cons_of_mem _ he'))
    unfold findLatestLoop
    split
    · exact ih'
    · rename_i hname
      split
      · exact ih'
      · rename_i modTime hx
        have hn : HasPrefix x.Name "pceamless_backup_" = true ∧ HasSuffix x.Name ".zip" = true := by
          simpa using hname
        have := hmax x (List.mem_cons_self _ _) modTime hn.1 hn.2 hx
        have hle : ¬ modTime.Unix > t.Unix := by
          rcases this with h | h
          · subst h
            rw [hi] at hx
            cases hx
            exact lt_irrefl _
          · exact not_lt.2 (le_of_lt h)
        rw [if_neg hle]
        exact ih'

theorem findLatestLoop_greatest (dir : String) (e : DirEntry) (t : Time)
    (hp : HasPrefix e.Name "pceamless_backup_" = true) (hs : HasSuffix e.Name ".zip" = true)
    (hi : e.Info = .ok t) (l : List DirEntry) (he : e ∈ l)
    (hmax : ∀ e' ∈ l, ∀ t', HasPrefix e'.Name "pceamless_backup_" = true →
      HasSuffix e'.Name ".zip" = true → e'.Info = .ok t' → e' = e ∨ t'.Unix < t.Unix)
    (acc : String × Int) (hacc : acc.2 < t.Unix) :
    findLatestLoop dir l acc = (Join [dir, e.Name], t.Unix) := by
  induction l generalizing acc with
  | nil => cases he
  | cons x xs ih =>
    have hmax' : ∀ e' ∈ xs, ∀ t', HasPrefix e'.Name "pceamless_backup_" = true →
        HasSuffix e'.Name ".zip" = true → e'.Info = .ok t' → e' = e ∨ t'.Unix < t.Unix :=
      fun e' he' => hmax e' (List.mem_cons_of_mem _ he')
    obtain ⟨latest, latestTime⟩ := acc
    simp only at hacc
    by_cases hxe : x = e
    · subst hxe
      unfold findLatestLoop
      rw [if_neg (by simp [hp, hs])]
      simp only [hi]
      rw [if_pos hacc]
      exact findLatestLoop_keep dir x t hi xs hmax'
    · have he' : e ∈ xs := by
        rcases List.mem_cons.1 he with h | h
        · exact absurd h.symm hxe
        · exact h
      unfold findLatestLoop
      split
      · exact ih he' hmax' _ hacc
      · rename_i hname
        split
        · exact ih he' hmax' _ hacc
        · rename_i modTime hx
          have hn : HasPrefix x.Name "pceamless_backup_" = true ∧
              HasSuffix x.Name ".zip" = true := by simpa using hname
          have hlt : modTime.Unix < t.Unix := by
            rcases hmax x (List.mem_cons_self _ _) modTime hn.1 hn.2 hx with h | h
            · exact absurd h hxe
            · exact h
          split
          · exact ih he' hmax' _ hlt
          · exact ih he' hmax' _ hacc

theorem HasPrefix_ne_empty (name : String)
    (h : HasPrefix name "pceamless_backup_" = true) : name ≠ "" := by
  intro h0; subst h0; revert h; decide

/-- Claim C3, as amended. When the listing holds an archive entry whose
modification time, in whole seconds, is after the epoch and strictly greater
than that of every other archive entry, `findLatestBackupZip` returns the path
of that entry, in whatever order the listing is enumerated. -/
theorem findLatestBackupZip_greatest (dir : String) (entries listing : List DirEntry)
    (e : DirEntry) (t : Time) (hperm : listing.Perm entries) (he : e ∈ entries)
    (hp : HasPrefix e.Name "pceamless_backup_" = true) (hs : HasSuffix e.Name ".zip" = true)
    (hi : e.Info = .ok t) (hpos : 0 < t.Unix)
    (hmax : ∀ e' ∈ entries, ∀ t', HasPrefix e'.Name "pceamless_backup_" = true →
      HasSuffix e'.Name ".zip" = true → e'.Info = .ok t' → e' = e ∨ t'.Unix < t.Unix) :
    findLatestBackupZip dir (.ok listing) = .ok (Join [dir, e.Name]) := by
  have hloop : findLatestLoop dir listing ("", 0) = (Join [dir, e.Name], t.Unix) :=
    findLatestLoop_greatest dir e t hp hs hi listing (hperm.mem_iff.2 he)
      (fun e' he' => hmax e' (hperm.mem_iff.1 he')) ("", 0) hpos
  unfold findLatestBackupZip
  simp only [hloop]
  rw [if_neg (Join_pair_ne_empty dir e.Name (HasPrefix_ne_empty _ hp))]

theorem findLatestBackupZip_greatest_witness :
    findLatestBackupZip "/Users/u/Desktop" (.ok latestListing.reverse) =
      .ok (Join ["/Users/u/Desktop", "pceamless_backup_20240301000000.zip"]) :=
  findLatestBackupZip_greatest "/Users/u/Desktop" latestListing latestListing.reverse
    { Name := "pceamless_backup_20240301000000.zip", Info := .ok ⟨1709251200, 5⟩ }
    ⟨1709251200, 5⟩ (List.reverse_perm _) (by simp [latestListing]) (by decide) (by decide) rfl
    (by decide)
    (by
      intro e' he' t' h1 h2 h3
      simp only [latestListing, List.mem_cons, List.mem_singleton, List.not_mem_nil,
        or_false] at he'
      rcases he' with h | h | h | h <;> subst h
      · right; cases h3; decide
      · exact absurd h1 (by decide)
      · left; rfl
      · right; cases h3; decide)

/-- Claim C3, counterexample. Two archives modified within the same second:
the first one enumerated is returned, not the one modified last. And of two
archives modified a day before the epoch and at the epoch, none is found. -/
theorem findLatestBackupZip_same_second :
    findLatestBackupZip "/Users/u/Desktop" (.ok
        [ { Name := "pceamless_backup_a.zip", Info := .ok ⟨1704067200, 100⟩ },
          { Name := "pceamless_backup_b.zip", Info := .ok ⟨1704067200, 900⟩ } ]) =
      .ok "/Users/u/Desktop/pceamless_backup_a.zip" ∧
    (⟨1704067200, 100⟩ : Time) ≠ ⟨1704067200, 900⟩ ∧
    findLatestBackupZip "/Users/u/Desktop" (.ok
        [ { Name := "pceamless_backup_a.zip", Info := .ok ⟨-86400, 0⟩ },
          { Name := "pceamless_backup_b.zip", Info := .ok ⟨0, 0⟩ } ]) =
      .error (.text "バックアップ ZIP ファイルが見つかりません") :=
  ⟨rfl, by decide, rfl⟩

/-- Claim C9, the failing input. The listing holds one archive, whose
modification time is the epoch; `findLatestBackupZip` reports that there is no
archive. -/
theorem findLatestBackupZip_epoch_not_found :
    HasPrefix "pceamless_backup_19700101000000.zip" "pceamless_backup_" = true ∧
    HasSuffix "pceamless_backup_19700101000000.zip" ".zip" = true ∧
    findLatestBackupZip "/Users/u/Desktop" (.ok
        [ { Name := "pceamless_backup_19700101000000.zip", Info := .ok ⟨0, 0⟩ } ]) =
      .error (.text "バックアップ ZIP ファイルが見つかりません") :=
  ⟨rfl, rfl, rfl⟩

/-! ## Exclusion maps -/

theorem HasPrefix_dot_append (s : String) : HasPrefix ("." ++ s) "." = true := by
  simp [HasPrefix, String.data_append]

/-- Claim C4, the failing input. The dotfile item of the catalog is named
`dotfile 群`, with a space; the `switch` of `performBackup` tests for
`dotfile群`, so the item is staged as a user folder of that name: with every
item of the catalog selected, the archive holds `userfiles/dotfile 群/` and
nothing of the dot entries of the home directory. -/
theorem catalog_dotfile_item_staged_as_user_folder :
    ({ Name := "dotfile 群", Selected := true } : BackupItem) ∈ backupCmdItems ∧
    (∀ (env : Env) (backupDir : String) (w : World),
      (backupItem env backupDir { Name := "dotfile 群", Selected := true } w).2 =
        (backupUserFiles env backupDir "dotfile 群"
          (w.printf ("dotfile 群" ++ " をバックアップ中...\n"))).2) ∧
    archiveNames (performBackup demoEnv backupCmdItems demoWorld).2.fs
        "/Users/u/Desktop/pceamless_backup_20240101000000.zip" =
      some ["userfiles/", "userfiles/Documents/", "userfiles/Downloads/", "userfiles/Movies/",
        "userfiles/Music/", "userfiles/Pictures/", "userfiles/dotfile 群/"] := by
  refine ⟨by decide, ?_, rfl⟩
  intro env backupDir w
  unfold backupItem
  rw [if_neg (by decide), if_neg (by decide)]
  simp only
  rcases backupUserFiles env backupDir "dotfile 群"
    (w.printf ("dotfile 群" ++ " をバックアップ中...\n")) with ⟨_ | err, w1⟩ <;> rfl

/-! ## The file system -/

theorem lookupNode_nil (fs : FS) : lookupNode fs [] = some (.dir 0o755) := rfl

theorem lookupNode_cons (fs : FS) (q p : Path) (n : Node) (hq : q ≠ []) :
    lookupNode ((q, n) :: fs) p = if p = q then some n else lookupNode fs p := by
  unfold lookupNode
  by_cases hp : p = []
  · subst hp
    rw [if_pos rfl, if_neg (fun h => hq h.symm), if_pos rfl]
  · rw [if_neg hp, if_neg hp]
    by_cases hqp : q = p
    · subst hqp; simp [find]
    · have hpq : ¬ p = q := fun h => hqp h.symm
      simp only [find, if_neg hqp, if_neg hpq]

theorem lookupNode_ne_nil_of_none {fs : FS} {p : Path} (h : lookupNode fs p = none) :
    p ≠ [] := by
  intro hp; subst hp; cases h

theorem Grows.refl (D : Path) (fs : FS) : Grows D fs fs := fun _ => Or.inl rfl

theorem Grows.trans {D : Path} {fs1 fs2 fs3 : FS} (h12 : Grows D fs1 fs2)
    (h23 : Grows D fs2 fs3) : Grows D fs1 fs3 := by
  intro p
  rcases h12 p with h | ⟨hD, h⟩ | ⟨hD, h, perm, hp⟩
  · rcases h23 p with h' | ⟨hD', h'⟩ | ⟨hD', h', perm', hp'⟩
    · exact Or.inl (h'.trans h)
    · refine Or.inr (Or.inl ⟨hD', ?_⟩)
      rcases h' with h' | ⟨perm, c, c', h1, h2⟩
      · exact Or.inl (h ▸ h')
      · exact Or.inr ⟨perm, c, c', h ▸ h1, h2⟩
    · exact Or.inr (Or.inr ⟨hD', h ▸ h', perm', hp'⟩)
  · rcases h with h | ⟨perm, c, c', h1, h2⟩
    · exact Or.inr (Or.inl ⟨hD, Or.inl h⟩)
    · rcases h23 p with h' | ⟨_, h'⟩ | ⟨_, h', _⟩
      · exact Or.inr (Or.inl ⟨hD, Or.inr ⟨perm, c, c', h1, h'.trans h2⟩⟩)
      · rcases h' with h' | ⟨perm2, c2, c2', h3, h4⟩
        · rw [h2] at h'; cases h'
        · rw [h2] at h3
          cases h3
          exact Or.inr (Or.inl ⟨hD, Or.inr ⟨perm, c, c2', h1, h4⟩⟩)
      · rw [h2] at h'; cases h'
  · rcases h23 p with h' | ⟨_, h'⟩ | ⟨_, h', _⟩
    · exact Or.inr (Or.inr ⟨hD, h, perm, h'.trans hp⟩)
    · rcases h' with h' | ⟨perm2, c2, c2', h3, _⟩
      · rw [hp] at h'; cases h'
      · rw [hp] at h3; cases h3
    · rw [hp] at h'; cases h'

theorem prefix_comparable {a b t : List String} (ha : a <+: t) (hb : b <+: t) :
    a <+: b ∨ b <+: a := by
  rcases Nat.le_total a.length b.length with h | h
  · exact Or.inl (List.prefix_of_prefix_length_le ha hb h)
  · exact Or.inr (List.prefix_of_prefix_length_le hb ha h)

theorem Grows.weaken {D D' : Path} {fs fs' : FS} (hD : D <+: D') (h : Grows D' fs fs') :
    Grows D fs fs' := by
  intro p
  rcases h p with h | ⟨hp, h⟩ | ⟨hp, h, perm, hd⟩
  · exact Or.inl h
  · exact Or.inr (Or.inl ⟨hD.trans hp, h⟩)
  · rcases prefix_comparable hD hp with hc | hc
    · exact Or.inr (Or.inl ⟨hc, Or.inl h⟩)
    · exact Or.inr (Or.inr ⟨hc, h, perm, hd⟩)

/-- Links, directories and special files are not altered. -/
theorem Grows.keep {D : Path} {fs fs' : FS} (h : Grows D fs fs') (p : Path) (n : Node)
    (hp : lookupNode fs p = some n) (hn : ∀ perm c, n ≠ .file perm c) :
    lookupNode fs' p = some n := by
  rcases h p with h | ⟨_, h⟩ | ⟨_, h, _⟩
  · rw [h]; exact hp
  · rcases h with h | ⟨perm, c, c', h1, _⟩
    · rw [hp] at h; cases h
    · rw [hp] at h1
      cases h1
      exact absurd rfl (hn perm c)
  · rw [hp] at h; cases h

theorem Grows.insert_none {D : Path} {fs : FS} {q : Path} (n : Node) (hD : D <+: q)
    (hq : lookupNode fs q = none) : Grows D fs ((q, n) :: fs) := by
  intro p
  rw [lookupNode_cons fs q p n (lookupNode_ne_nil_of_none hq)]
  by_cases hp : p = q
  · subst hp
    exact Or.inr (Or.inl ⟨hD, Or.inl hq⟩)
  · rw [if_neg hp]; exact Or.inl rfl

theorem Grows.insert_file {D : Path} {fs : FS} {q : Path} (perm : Nat) (c c' : Content)
    (hD : D <+: q) (hq : lookupNode fs q = some (.file perm c)) :
    Grows D fs ((q, .file perm c') :: fs) := by
  intro p
  have hne : q ≠ [] := by
    intro h; subst h; cases hq
  rw [lookupNode_cons fs q p _ hne]
  by_cases hp : p = q
  · subst hp
    rw [if_pos rfl]
    exact Or.inr (Or.inl ⟨hD, Or.inr ⟨perm, c, c', hq, rfl⟩⟩)
  · rw [if_neg hp]; exact Or.inl rfl

theorem checkPath_none {env : Env} {op name : String} (h : checkPath env op name = none) :
    name ≠ "" ∧ name.length < env.pathMax := by
  unfold checkPath at h
  split at h
  · cases h
  · split at h
    · cases h
    · rename_i h1 h2
      exact ⟨h1, by omega⟩

theorem Symlink_ok {env : Env} {fs fs' : FS} {old new : String}
    (h : Symlink env fs old new = .ok fs') :
    (new ≠ "" ∧ new.length < env.pathMax) ∧ lookupNode fs (toPath new) = none ∧
      fs' = (toPath new, .symlink old) :: fs := by
  unfold Symlink at h
  split at h
  · cases h
  · rename_i hc
    split at h
    · cases h
    · rename_i hl
      split at h
      · cases h
        exact ⟨checkPath_none hc, hl, rfl⟩
      · cases h

theorem Symlink_grows {env : Env} {fs fs' : FS} {old new : String} {D : Path}
    (h : Symlink env fs old new = .ok fs') (hD : D <+: toPath new) : Grows D fs fs' := by
  obtain ⟨_, h2, h3⟩ := Symlink_ok h
  subst h3
  exact Grows.insert_none _ hD h2

theorem OpenFile_grows {env : Env} {fs fs' : FS} {name : String} {perm : Nat} {D : Path}
    (h : OpenFile env fs name perm = .ok fs') (hD : D <+: toPath name) : Grows D fs fs' := by
  unfold OpenFile at h
  split at h
  · cases h
  · split at h
    · rename_i perm0 c hl
      cases h
      exact Grows.insert_file perm0 c _ hD hl
    · cases h
    · cases h
    · cases h
    · rename_i hl
      split at h
      · cases h
        exact Grows.insert_none _ hD hl
      · cases h

theorem writeFile_grows (fs : FS) (name : String) (content : Content) {D : Path}
    (hD : D <+: toPath name) : Grows D fs (writeFile fs name content) := by
  unfold writeFile
  split
  · rename_i perm c hl
    exact Grows.insert_file perm c _ hD hl
  · exact Grows.refl _ _

/-- What `mkdirAllPath` does: every path keeps its entry, except the missing
prefixes of the target, which become directories. -/
theorem mkdirAllPath_spec (umask perm : Nat) (rev : List String) (fs fs' : FS)
    (h : mkdirAllPath umask perm rev fs = .ok fs') :
    (∃ perm', lookupNode fs' rev.reverse = some (.dir perm')) ∧
    ∀ p, lookupNode fs' p = lookupNode fs p ∨
      (p <+: rev.reverse ∧ lookupNode fs p = none ∧
        lookupNode fs' p = some (.dir (clearBits perm umask))) := by
  induction rev generalizing fs' with
  | nil =>
    simp only [mkdirAllPath] at h
    cases h
    exact ⟨⟨_, rfl⟩, fun p => Or.inl rfl⟩
  | cons n up ih =>
    rw [mkdirAllPath] at h
    split at h
    · rename_i perm0 hl
      cases h
      exact ⟨⟨perm0, hl⟩, fun p => Or.inl rfl⟩
    · cases h
    · cases h
    · rename_i hl
      split at h
      · cases h
      · rename_i fs1 h1
        cases h
        obtain ⟨_, ih2⟩ := ih fs1 h1
        have hne : (n :: up).reverse ≠ [] := by simp
        have hup : up.reverse <+: (n :: up).reverse := by
          rw [List.reverse_cons]; exact List.prefix_append _ _
        have hself : lookupNode fs1 (n :: up).reverse = none := by
          rcases ih2 (n :: up).reverse with h | ⟨hp, _, _⟩
          · rw [h]; exact hl
          · have := hp.length_le
            simp at this
        refine ⟨⟨_, by rw [lookupNode_cons _ _ _ _ hne, if_pos rfl]⟩, ?_⟩
        intro p
        rw [lookupNode_cons _ _ _ _ hne]
        by_cases hp : p = (n :: up).reverse
        · subst hp
          rw [if_pos rfl]
          exact Or.inr ⟨List.prefix_refl _, hl, rfl⟩
        · rw [if_neg hp]
          rcases ih2 p with h | ⟨hp1, hp2, hp3⟩
          · exact Or.inl h
          · exact Or.inr ⟨hp1.trans hup, hp2, hp3⟩

theorem MkdirAll_ok {env : Env} {fs fs' : FS} {path : String} {perm : Nat}
    (h : MkdirAll env fs path perm = .ok fs') :
    (path ≠ "" ∧ path.length < env.pathMax) ∧
      mkdirAllPath env.umask perm (toPath path).reverse fs = .ok fs' := by
  unfold MkdirAll at h
  split at h
  · cases h
  · rename_i hc
    split at h
    · cases h
    · rename_i fs1 h1
      cases h
      exact ⟨checkPath_none hc, h1⟩

theorem MkdirAll_grows {env : Env} {fs fs' : FS} {path : String} {perm : Nat} {D : Path}
    (h : MkdirAll env fs path perm = .ok fs')
    (hD : D <+: toPath path ∨ toPath path <+: D) : Grows D fs fs' := by
  have hs := (mkdirAllPath_spec _ _ _ _ _ (MkdirAll_ok h).2).2
  simp only [List.reverse_reverse] at hs
  intro p
  rcases hs p with h1 | ⟨hp, hn, hd⟩
  · exact Or.inl h1
  · rcases hD with hD | hD
    · rcases prefix_comparable hD hp with hc | hc
      · exact Or.inr (Or.inl ⟨hc, Or.inl hn⟩)
      · exact Or.inr (Or.inr ⟨hc, hn, _, hd⟩)
    · exact Or.inr (Or.inr ⟨hp.trans hD, hn, _, hd⟩)

theorem find_ne_none_iff (fs : FS) (q : Path) :
    find q fs ≠ none ↔ ∃ kn ∈ fs, kn.1 = q := by
  induction fs with
  | nil =>
    constructor
    · intro h; exact absurd rfl h
    · rintro ⟨kn, hkn, _⟩; cases hkn
  | cons kn rest ih =>
    obtain ⟨k, n⟩ := kn
    by_cases hk : k = q
    · constructor
      · intro _; exact ⟨(k, n), List.mem_cons_self _ _, hk⟩
      · intro _
        simp only [find, if_pos hk]
        intro h; cases h
    · simp only [find, if_neg hk]
      rw [ih]
      constructor
      · rintro ⟨kn, hkn, h⟩; exact ⟨kn, List.mem_cons_of_mem _ hkn, h⟩
      · rintro ⟨kn, hkn, h⟩
        rcases List.mem_cons.1 hkn with h1 | h1
        · subst h1; exact absurd h hk
        · exact ⟨kn, h1, h⟩

theorem mem_childNames (fs : FS) (p : Path) (n : String) :
    n ∈ childNames fs p ↔ isName n = true ∧ lookupNode fs (p ++ [n]) ≠ none := by
  have hl : lookupNode fs (p ++ [n]) = find (p ++ [n]) fs := by
    unfold lookupNode
    rw [if_neg (by simp)]
  rw [hl, find_ne_none_iff]
  unfold childNames sortStrings
  rw [(List.perm_insertionSort _ _).mem_iff, List.mem_dedup, List.mem_filterMap]
  constructor
  · rintro ⟨kn, hkn, h⟩
    split at h
    · cases h
    · rename_i n' up hrev
      split at h
      · rename_i hc
        cases h
        refine ⟨hc.2, kn, hkn, ?_⟩
        have := congrArg List.reverse hrev
        rw [List.reverse_reverse, List.reverse_cons, hc.1] at this
        exact this
      · cases h
  · rintro ⟨hn, kn, hkn, hk⟩
    refine ⟨kn, hkn, ?_⟩
    rw [hk]
    simp [hn]

theorem ReadDir_ok {env : Env} {fs : FS} {name : String} {names : List String}
    (h : ReadDir env fs name = .ok names) :
    (name ≠ "" ∧ name.length < env.pathMax) ∧
      (∃ perm, lookupNode fs (toPath name) = some (.dir perm)) ∧
      names = childNames fs (toPath name) := by
  unfold ReadDir at h
  split at h
  · cases h
  · rename_i hc
    split at h
    · rename_i perm hl
      cases h
      exact ⟨checkPath_none hc, ⟨perm, hl⟩, rfl⟩
    · cases h
    · cases h
    · cases h

theorem ReadDir_isName {env : Env} {fs : FS} {name : String} {names : List String}
    (h : ReadDir env fs name = .ok names) : ∀ n ∈ names, isName n = true := by
  intro n hn
  rw [(ReadDir_ok h).2.2] at hn
  exact ((mem_childNames _ _ _).1 hn).1

theorem copyFile_grows (env : Env) (src dst : String) (w : World) :
    Grows (toPath dst) w.fs (copyFile env src dst w).2.fs := by
  unfold copyFile
  split
  · exact Grows.refl _ _
  · split
    · exact Grows.refl _ _
    · rename_i fs1 ho
      have h1 := OpenFile_grows ho (List.prefix_refl _)
      split
      · exact h1
      · exact h1.trans (writeFile_grows _ _ _ (List.prefix_refl _))

theorem World.printf_fs (w : World) (line : String) : (w.printf line).fs = w.fs := rfl

theorem copyEntries_grows (copy : String → String → World → Option (Option Error × World))
    (hcopy : ∀ s d w r, copy s d w = some r → Grows (toPath d) w.fs r.2.fs)
    (src dst : String) (hdst : dst ≠ "") (entries : List String)
    (hnames : ∀ n ∈ entries, isName n = true) (w w' : World)
    (h : copyEntries copy src dst entries w = some w') : Grows (toPath dst) w.fs w'.fs := by
  induction entries generalizing w with
  | nil =>
    simp only [copyEntries] at h
    cases h
    exact Grows.refl _ _
  | cons name rest ih =>
    have hn : isName name = true := hnames name (List.mem_cons_self _ _)
    have hpre : toPath dst <+: toPath (Join [dst, name]) := by
      rw [toPath_Join_name dst name hdst hn]
      exact List.prefix_append _ _
    have ih' := ih (fun n hn => hnames n (List.mem_cons_of_mem _ hn))
    rw [copyEntries] at h
    split at h
    · cases h
    · rename_i err w1 hc
      have h1 : Grows (toPath dst) w.fs w1.fs := Grows.weaken hpre (hcopy _ _ _ _ hc)
      have h2 := ih' _ h
      exact h1.trans h2
    · rename_i w1 hc
      have h1 : Grows (toPath dst) w.fs w1.fs := Grows.weaken hpre (hcopy _ _ _ _ hc)
      have h2 := ih' _ h
      exact h1.trans h2

theorem copyPathN_grows (env : Env) (fuel : Nat) :
    ∀ (src dst : String) (w : World) (r : Option Error × World),
      copyPathN env fuel src dst w = some r → Grows (toPath dst) w.fs r.2.fs := by
  induction fuel with
  | zero =>
    intro src dst w r h
    simp [copyPathN] at h
  | succ fuel ih =>
    intro src dst w r h
    rw [copyPathN] at h
    split at h
    · cases h; exact Grows.refl _ _
    · split at h
      · cases h; exact Grows.refl _ _
      · split at h
        · cases h; exact Grows.refl _ _
        · rename_i fs1 hs
          cases h
          exact Symlink_grows hs (List.prefix_refl _)
    · split at h
      · cases h; exact Grows.refl _ _
      · rename_i fs1 hm
        have h1 : Grows (toPath dst) w.fs fs1 := MkdirAll_grows hm (Or.inl (List.prefix_refl _))
        split at h
        · cases h; exact h1
        · rename_i entries hr
          split at h
          · cases h
          · rename_i w2 hc
            cases h
            exact h1.trans (copyEntries_grows _ ih src dst (MkdirAll_ok hm).1.1 entries
              (ReadDir_isName hr) _ w2 hc)
    · cases h
      exact copyFile_grows env src dst w

theorem copyEntries_exists_aux (copy : String → String → World → Option (Option Error × World))
    (src dst : String) (entries : List String)
    (hall : ∀ n ∈ entries, ∀ w, (copy (Join [src, n]) (Join [dst, n]) w).isSome = true)
    (w : World) : (copyEntries copy src dst entries w).isSome = true := by
  induction entries generalizing w with
  | nil => rfl
  | cons name rest ih =>
    have ih' := ih (fun n hn => hall n (List.mem_cons_of_mem _ hn))
    have h1 := hall name (List.mem_cons_self _ _) w
    rw [copyEntries]
    split
    · rename_i hc
      rw [hc] at h1; cases h1
    · exact ih' _
    · exact ih' _

/-- Enough fuel: the recursion of `copyPath` ends. -/
theorem copyPathN_fuel (env : Env) (fuel : Nat) :
    ∀ (src dst : String) (w : World), env.pathMax ≤ (toPath dst).length + fuel →
      (copyPathN env (fuel + 1) src dst w).isSome = true := by
  induction fuel with
  | zero =>
    intro src dst w hf
    rw [copyPathN]
    split
    · rfl
    · split
      · rfl
      · split <;> rfl
    · split
      · rfl
      · rename_i fs1 hm
        have := (MkdirAll_ok hm).1.2
        have := toPath_length_le dst
        omega
    · rfl
  | succ fuel ih =>
    intro src dst w hf
    rw [copyPathN]
    split
    · rfl
    · split
      · rfl
      · split <;> rfl
    · split
      · rfl
      · rename_i fs1 hm
        split
        · rfl
        · rename_i entries hr
          have hsome := copyEntries_exists_aux (copyPathN env (fuel + 1)) src dst entries
            (by
              intro n hn w'
              apply ih
              rw [toPath_Join_name dst n (MkdirAll_ok hm).1.1 (ReadDir_isName hr n hn)]
              simp only [List.length_append, List.length_singleton]
              omega)
            { w with fs := fs1 }
          split
          · rename_i hc
            rw [hc] at hsome; cases hsome
          · rfl
    · rfl

theorem copyPath_some (env : Env) (src dst : String) (w : World) :
    copyPathN env (env.pathMax + 1) src dst w = some (copyPath env src dst w) := by
  have h := copyPathN_fuel env env.pathMax src dst w (by omega)
  unfold copyPath
  cases hc : copyPathN env (env.pathMax + 1) src dst w with
  | none => rw [hc] at h; cases h
  | some r => rfl

theorem copyPath_grows (env : Env) (src dst : String) (w : World) :
    Grows (toPath dst) w.fs (copyPath env src dst w).2.fs :=
  copyPathN_grows env _ src dst w _ (copyPath_some env src dst w)

theorem copyChild_of_ok {env : Env} {src dst name : String} {w w1 : World}
    (h : copyPath env (Join [src, name]) (Join [dst, name]) w = (none, w1)) :
    copyChild env src dst w name = w1 := by
  unfold copyChild
  rw [h]

theorem copyChild_of_error {env : Env} {src dst name : String} {w w1 : World} {err : Error}
    (h : copyPath env (Join [src, name]) (Join [dst, name]) w = (some err, w1)) :
    copyChild env src dst w name =
      w1.printf ("WARNING: " ++ name ++ "のコピーに失敗しました: " ++ err.toStr ++ "\n") := by
  unfold copyChild
  rw [h]

theorem copyChild_fs_grows (env : Env) (src dst : String) (w : World) (name : String) :
    Grows (toPath (Join [dst, name])) w.fs (copyChild env src dst w name).fs := by
  have h := copyPath_grows env (Join [src, name]) (Join [dst, name]) w
  rcases hc : copyPath env (Join [src, name]) (Join [dst, name]) w with ⟨_ | err, w1⟩
  · rw [copyChild_of_ok hc]
    rw [hc] at h
    exact h
  · rw [copyChild_of_error hc]
    rw [hc] at h
    exact h

theorem foldl_copyChild_keep (env : Env) (src dst : String) (l : List String) (w : World)
    (p : Path) (n : Node) (hn : ∀ perm c, n ≠ .file perm c)
    (h : lookupNode w.fs p = some n) :
    lookupNode (l.foldl (copyChild env src dst) w).fs p = some n := by
  induction l generalizing w with
  | nil => exact h
  | cons x l ih =>
    rw [List.foldl_cons]
    exact ih _ ((copyChild_fs_grows env src dst w x).keep p n h hn)

theorem WalkPos.root (src : String) (h : src ≠ "") : WalkPos src src [] :=
  ⟨h, by simp, rfl, by simp, by simp [weight]⟩

theorem StagedTree.names {fs : FS} {S : Path} (h : StagedTree fs S) (r : List String)
    (hp : lookupNode fs (S ++ r) ≠ none) : ∀ e ∈ r, isName e = true := by
  by_cases hr : r = []
  · subst hr; simp
  · cases hn : lookupNode fs (S ++ r) with
    | none => exact absurd hn hp
    | some n => exact (h.2 r n hr hn).2.2

end Pceamless
